import Mathlib

/-!
Verification of the Catalog Matching Engine of `dhi-search-mcp`
(`src/dhi_search_mcp/core.py`).

Python strings are modelled as `List Char` (`PyStr`); the arbitrary JSON
values flowing into `extract_image_names` are modelled by the `PyVal`
type.  The fuzzy scoring functions (`fuzz.WRatio`, `fuzz.partial_ratio`)
come from the fuzzywuzzy library, which is not part of this repository,
so `find_matches` is parameterised by the two scorers; concrete scorers
modelled from the specification (§4.2) are provided for the claims that
need a concrete scorer.
-/

/-- Python strings, modelled as lists of characters. -/
abbrev PyStr := List Char

/-- Whitespace characters recognised by Python `str.split()` (ASCII range). -/
def pySpace (c : Char) : Bool :=
  c = ' ' || c = '\t' || c = '\n' || c = '\r' || c = '\x0b' || c = '\x0c'

/-- Validity of the code point of an ASCII lower-case letter. -/
theorem lowerValid {n : Nat} (h1 : 65 ≤ n) (h2 : n ≤ 90) : (n + 32).isValidChar :=
  Or.inl (by omega)

/-- Python `str.lower` on a single character (ASCII model). -/
def lowerChar (c : Char) : Char :=
  if h : 65 ≤ c.toNat ∧ c.toNat ≤ 90 then
    Char.ofNatAux (c.toNat + 32) (lowerValid h.1 h.2)
  else c

/-- Python `str.lower` (ASCII model). -/
def pyLower (s : PyStr) : PyStr := s.map lowerChar

/-- Python's substring test `p in s`. -/
def subIn (p : PyStr) : PyStr → Bool
  | [] => p.isEmpty
  | c :: rest => p.isPrefixOf (c :: rest) || subIn p rest

/-- Python `query.replace(".net", "dotnet")`: replace every (leftmost,
non-overlapping) occurrence of `".net"` by `"dotnet"`. -/
def replNet : PyStr → PyStr
  | '.' :: 'n' :: 'e' :: 't' :: rest => 'd' :: 'o' :: 't' :: 'n' :: 'e' :: 't' :: replNet rest
  | c :: rest => c :: replNet rest
  | [] => []

/-- The alias substitution loop of `find_matches` (`core.py` lines 145-151):
the alias table has the single entry `".net" → "dotnet"`. -/
def aliasSub (q : PyStr) : PyStr :=
  if subIn ".net".data q then replNet q else q

/-- Accumulator-passing worker for `pySplit`; `acc` holds the reversed
characters of the word currently being read. -/
def pySplitGo : PyStr → PyStr → List PyStr
  | [], acc => if acc.isEmpty then [] else [acc.reverse]
  | c :: rest, acc =>
    if pySpace c then
      if acc.isEmpty then pySplitGo rest [] else acc.reverse :: pySplitGo rest []
    else pySplitGo rest (c :: acc)

/-- Python `str.split()`: split on whitespace runs, discarding empty pieces. -/
def pySplit (s : PyStr) : List PyStr := pySplitGo s []

/-- Python `" ".join(ts)`. -/
def joinSpace : List PyStr → PyStr
  | [] => []
  | [t] => t
  | t :: ts => t ++ ' ' :: joinSpace ts

/-- The stop-word set of `find_matches` (`core.py` lines 154-155). -/
def stopWords : List PyStr :=
  ["runtime", "sdk", "cli", "agent", "operator", "server",
   "client", "driver", "plugin", "controller"].map String.data

/-- The step `query = input_image.lower()` followed by alias substitution
(`core.py` lines 142-151). -/
def normQuery (raw : PyStr) : PyStr := aliasSub (pyLower raw)

/-- The step `query_parts = query.split()` (`core.py` line 157). -/
def queryPartsOf (raw : PyStr) : List PyStr := pySplit (normQuery raw)

/-- The step `core_parts = [p for p in query_parts if p not in stop_words]`
(`core.py` line 158). -/
def corePartsOf (raw : PyStr) : List PyStr :=
  (queryPartsOf raw).filter (fun p => !stopWords.contains p)

/-- The step `core_name = " ".join(core_parts) if core_parts else query`
(`core.py` line 159). -/
def coreNameOf (raw : PyStr) : PyStr :=
  if corePartsOf raw = [] then normQuery raw else joinSpace (corePartsOf raw)

/-- The step `name_clean = name.replace('-', ' ').replace('_', ' ').lower()`
(`core.py` line 168). -/
def nameCleanOf (name : PyStr) : PyStr :=
  pyLower ((name.map (fun c => if c = '-' then ' ' else c)).map
    (fun c => if c = '_' then ' ' else c))

/-- The core-name containment rule (`core.py` lines 169-173): the candidate
is dropped when `core_name` is non-empty, longer than 2 characters, not a
substring of `name_clean`, and `fuzz.partial_ratio` scores below 80.
`pr` stands for the external `fuzz.partial_ratio`. -/
def coreRuleDiscards (pr : PyStr → PyStr → Nat) (core_name name_clean : PyStr) : Bool :=
  !core_name.isEmpty && decide (2 < core_name.length) &&
    !subIn core_name name_clean && decide (pr core_name name_clean < 80)

/-- The enforced keywords of `find_matches` (`core.py` line 175). -/
def enforcedKeywords : List PyStr := ["cli".data, "sdk".data]

/-- The keyword-enforcement rule (`core.py` lines 175-194), returning `true`
when the candidate is dropped.  `tags_str` is the candidate's tag list
joined by spaces and lowercased. -/
def keywordDiscards (query_parts : List PyStr) (name_clean tags_str : PyStr) : Bool :=
  let should_continue :=
    enforcedKeywords.any (fun kw => query_parts.contains kw && !subIn kw name_clean)
  if should_continue then
    !enforcedKeywords.all (fun kw =>
      !query_parts.contains kw || subIn kw name_clean || subIn kw tags_str)
  else false

/-- Stable insertion (descending by score) used to model the descending,
stable sorts of `find_matches` (`heapq.nlargest` and `list.sort` with
`reverse=True` both keep ties in first-seen order). -/
def insertDesc (a : PyStr × Nat) : List (PyStr × Nat) → List (PyStr × Nat)
  | [] => [a]
  | b :: t => if b.2 < a.2 then a :: b :: t else b :: insertDesc a t

/-- Stable descending sort by score. -/
def sortDesc : List (PyStr × Nat) → List (PyStr × Nat)
  | [] => []
  | x :: xs => insertDesc x (sortDesc xs)

/-- The tag list of catalog entry `n` (`catalog_image_data.get(name, [])`,
`core.py` line 183). -/
def tagsOf (catalog : List (PyStr × List PyStr)) (n : PyStr) : List PyStr :=
  ((catalog.find? (fun p => p.1 == n)).map Prod.snd).getD []

/-- The function `find_matches` (`core.py` lines 131-199).  `wr` is the ranking scorer
(`fuzz.WRatio`, applied by `process.extract` to the normalised query and
each catalog name) and `pr` is `fuzz.partial_ratio`; both are external
library functions, so they are parameters of the model.  The catalog dict
is modelled as an association list of (name, tags) in insertion order. -/
def find_matches (wr pr : PyStr → PyStr → Nat) (input_image : PyStr)
    (catalog : List (PyStr × List PyStr)) : List PyStr :=
  let catalog_images := catalog.map Prod.fst
  let query := normQuery input_image
  let query_parts := queryPartsOf input_image
  let core_name := coreNameOf input_image
  let top5 := (sortDesc (catalog_images.map (fun n => (n, wr query n)))).take 5
  let results := top5.filter (fun m =>
    !decide (m.2 < 85) &&
    !coreRuleDiscards pr core_name (nameCleanOf m.1) &&
    !keywordDiscards query_parts (nameCleanOf m.1) (pyLower (joinSpace (tagsOf catalog m.1))))
  (sortDesc results).map Prod.fst

/-- Modelled from the spec: §4.2 requires an edit-distance-based base
primitive for the scorer, which is fuzzywuzzy library code absent from
`src/`; the Levenshtein-derived distance with substitution cost 2 is one
of the admissible choices named there. -/
def levAux (f : PyStr → Nat) (x : Char) : PyStr → Nat
  | [] => f [] + 1
  | y :: ys =>
    if x = y then f ys
    else min (1 + f (y :: ys)) (min (1 + levAux f x ys) (2 + f ys))

/-- The edit distance itself (`levAux f x` plays the role of
`lev (x :: xs) ·` with `f = lev xs ·`, keeping the recursion structural). -/
def lev : PyStr → PyStr → Nat
  | [], ys => ys.length
  | x :: xs, ys => levAux (lev xs) x ys

/-- Modelled from the spec: §4.2 — similarity ratio in [0,100] derived from
the edit distance (identical strings score 100, disjoint strings near 0). -/
def ratioL (a b : PyStr) : Nat :=
  if a.length + b.length = 0 then 100
  else (100 * (a.length + b.length - lev a b)) / (a.length + b.length)

/-- Best ratio of `a` against any window of `b` of length `a.length`
(`a` is assumed to be the shorter string). -/
def bestWindow (a b : PyStr) : Nat :=
  ((List.range (b.length - a.length + 1)).map
    (fun i => ratioL a ((b.drop i).take a.length))).foldr max 0

/-- Modelled from the spec: §4.2 `partialRatio` — the best ratio achieved by
aligning the shorter string against any equal-length window of the longer
string.  Stands in for `fuzz.partial_ratio`, library code absent from
`src/`. -/
def pRatioSpec (a b : PyStr) : Nat :=
  if a.length ≤ b.length then bestWindow a b else bestWindow b a

/-- Lexicographic comparison of strings (Python `sorted` on strings). -/
def lexLe : PyStr → PyStr → Bool
  | [], _ => true
  | _ :: _, [] => false
  | x :: xs, y :: ys => if x = y then lexLe xs ys else decide (x < y)

/-- Insertion into a lexicographically sorted list of strings. -/
def insertStr (a : PyStr) : List PyStr → List PyStr
  | [] => [a]
  | b :: t => if lexLe a b then a :: b :: t else b :: insertStr a t

/-- Lexicographic sort of a token list (Python `sorted`). -/
def sortStrs : List PyStr → List PyStr
  | [] => []
  | x :: xs => insertStr x (sortStrs xs)

/-- Modelled from the spec: §4.2 token-sort ratio — tokens of each string
sorted alphabetically, rejoined, then compared. -/
def tokenSortRatio (a b : PyStr) : Nat :=
  ratioL (joinSpace (sortStrs (pySplit a))) (joinSpace (sortStrs (pySplit b)))

/-- Duplicate removal (token multiset to token set). -/
def nub (l : List PyStr) : List PyStr :=
  l.foldr (fun x acc => if x ∈ acc then acc else x :: acc) []

/-- Joining the common tokens with one of the sorted difference sets
(empty pieces are dropped, matching the `.strip()` of the construction). -/
def setCombine (t0 : PyStr) (d : List PyStr) : PyStr :=
  if d = [] then t0
  else if t0 = [] then joinSpace (sortStrs d)
  else t0 ++ ' ' :: joinSpace (sortStrs d)

/-- Modelled from the spec: §4.2 token-set ratio — common tokens plus sorted
differences compared. -/
def tokenSetRatio (a b : PyStr) : Nat :=
  let ta := nub (pySplit a)
  let tb := nub (pySplit b)
  let inter := ta.filter (fun t => t ∈ tb)
  let d1 := ta.filter (fun t => t ∉ tb)
  let d2 := tb.filter (fun t => t ∉ ta)
  let s0 := joinSpace (sortStrs inter)
  let s1 := setCombine s0 d1
  let s2 := setCombine s0 d2
  max (ratioL s0 s1) (max (ratioL s0 s2) (ratioL s1 s2))

/-- Modelled from the spec: §4.2 — the weighted-ratio scorer (`score`): a
blend of the full-string ratio with token-sort and token-set ratios
(weighted by 0.95), in which substring-tolerant variants (weighted by a
further 0.9) join the blend when the two lengths diverge (length ratio
below ~0.8); stands in for the library-provided `fuzz.WRatio`, absent
from `src/`. -/
def WRatioSpec (a b : PyStr) : Nat :=
  let base := ratioL a b
  let tsor := tokenSortRatio a b
  let tser := tokenSetRatio a b
  if min a.length b.length * 5 < max a.length b.length * 4 then
    max (max base (pRatioSpec a b * 90 / 100))
      (max (tsor * 95 * 90 / 10000) (tser * 95 * 90 / 10000))
  else
    max base (max (tsor * 95 / 100) (tser * 95 / 100))

/-- Python values as they may appear in a decoded GraphQL/JSON response
(`catalog_data` in `extract_image_names`). -/
inductive PyVal where
  | none
  | bool (b : Bool)
  | int (n : Int)
  | str (s : PyStr)
  | list (xs : List PyVal)
  | dict (kvs : List (PyVal × PyVal))

/-- The Python exceptions relevant to `extract_image_names`. -/
inductive PyExc where
  | keyError
  | typeError
  | attributeError
deriving DecidableEq

/-- Python `==` on the scalar values that can serve as dict keys here
(`True == 1`, `False == 0`; containers are never inserted, being
unhashable). -/
def keyEq (a b : PyVal) : Bool :=
  match a, b with
  | .none, .none => true
  | .bool x, .bool y => x = y
  | .bool x, .int y => (if x then (1 : Int) else 0) = y
  | .int x, .bool y => x = (if y then (1 : Int) else 0)
  | .int x, .int y => x = y
  | .str x, .str y => x = y
  | _, _ => false

/-- Hashability of a Python value (lists and dicts are unhashable). -/
def hashable : PyVal → Bool
  | .list _ => false
  | .dict _ => false
  | _ => true

/-- Python truthiness. -/
def pyTruthy : PyVal → Bool
  | .none => false
  | .bool b => b
  | .int n => !(n == 0)
  | .str s => !s.isEmpty
  | .list xs => !xs.isEmpty
  | .dict kvs => !kvs.isEmpty

/-- First value bound to `k` in an association list (Python dicts have
unique keys, so the first binding is the binding). -/
def assocFind (k : PyVal) : List (PyVal × PyVal) → Option PyVal
  | [] => Option.none
  | (k', v) :: rest => if keyEq k k' then some v else assocFind k rest

/-- Python subscription `v[k]` with a string key: `KeyError` when the key is
missing from a dict, `TypeError` when `v` is not a dict. -/
def pyGetItem (v : PyVal) (k : String) : Except PyExc PyVal :=
  match v with
  | .dict kvs =>
    match assocFind (.str k.data) kvs with
    | some x => .ok x
    | Option.none => .error .keyError
  | _ => .error .typeError

/-- Python iteration `for item in v`: lists yield elements, strings yield
one-character strings, dicts yield their keys; other values raise
`TypeError`. -/
def pyIter (v : PyVal) : Except PyExc (List PyVal) :=
  match v with
  | .list xs => .ok xs
  | .str s => .ok (s.map (fun c => .str [c]))
  | .dict kvs => .ok (kvs.map Prod.fst)
  | _ => .error .typeError

/-- Python `item.get(k, dflt)`: `AttributeError` when `item` is not a dict
(this is the method lookup failing, not a `TypeError`). -/
def pyGet (v : PyVal) (k : String) (dflt : PyVal) : Except PyExc PyVal :=
  match v with
  | .dict kvs => .ok ((assocFind (.str k.data) kvs).getD dflt)
  | _ => .error .attributeError

/-- Sum-of-values bookkeeping for the stats dict. -/
def statsFind (k : PyVal) : List (PyVal × Nat) → Option Nat
  | [] => Option.none
  | (k', v) :: rest => if keyEq k k' then some v else statsFind k rest

/-- The update `stats[item_type] = stats.get(item_type, 0) + 1` (`core.py` line 121):
in-place update when the key is present, append otherwise. -/
def statsIncr (k : PyVal) : List (PyVal × Nat) → List (PyVal × Nat)
  | [] => [(k, 1)]
  | (k', v) :: rest =>
    if keyEq k k' then (k', v + 1) :: rest else (k', v) :: statsIncr k rest

/-- The update `image_data[name] = tags` (`core.py` line 123): in-place update when the
key is present, append otherwise. -/
def assocSet (k v : PyVal) : List (PyVal × PyVal) → List (PyVal × PyVal)
  | [] => [(k, v)]
  | (k', v') :: rest =>
    if keyEq k k' then (k', v) :: rest else (k', v') :: assocSet k v rest

/-- The `for item in items` loop of `extract_image_names` (`core.py` lines
116-123), with the image-data and stats dicts as accumulators. -/
def extractLoop : List PyVal → List (PyVal × PyVal) → List (PyVal × Nat) →
    Except PyExc (List (PyVal × PyVal) × List (PyVal × Nat))
  | [], image_data, stats => .ok (image_data, stats)
  | item :: rest, image_data, stats =>
    match pyGet item "name" .none with
    | .error e => .error e
    | .ok name =>
      match pyGet item "type" (.str "Unknown".data) with
      | .error e => .error e
      | .ok item_type =>
        if pyTruthy name then
          if hashable item_type then
            match pyGet item "tagNames" (.list []) with
            | .error e => .error e
            | .ok tagsRaw =>
              let tags := if pyTruthy tagsRaw then tagsRaw else .list []
              if hashable name then
                extractLoop rest (assocSet name tags image_data) (statsIncr item_type stats)
              else .error .typeError
          else .error .typeError
        else extractLoop rest image_data stats

/-- Outcome of `extract_image_names`: a normal return, a `DHISearchError`
raised by the `except (KeyError, TypeError)` handler, or an exception that
escapes the handler. -/
inductive ExtractResult where
  | ok (image_data : List (PyVal × PyVal)) (stats : List (PyVal × Nat))
  | dhiSearchError
  | uncaught (e : PyExc)

/-- The body of the `try` block of `extract_image_names` (`core.py` lines
114-123): navigate `catalog_data['data']['dhiListRepositories']['items']`,
iterate, and build the two dicts. -/
def extractTry (catalog_data : PyVal) :
    Except PyExc (List (PyVal × PyVal) × List (PyVal × Nat)) :=
  match pyGetItem catalog_data "data" with
  | .error e => .error e
  | .ok d =>
    match pyGetItem d "dhiListRepositories" with
    | .error e => .error e
    | .ok r1 =>
      match pyGetItem r1 "items" with
      | .error e => .error e
      | .ok itemsV =>
        match pyIter itemsV with
        | .error e => .error e
        | .ok items => extractLoop items [] []

/-- The function `extract_image_names` (`core.py` lines 99-128): the `try` block above,
with `KeyError` and `TypeError` converted into `DHISearchError` and any
other exception propagating. -/
def extract_image_names (catalog_data : PyVal) : ExtractResult :=
  match extractTry catalog_data with
  | .ok (image_data, stats) => .ok image_data stats
  | .error .keyError => .dhiSearchError
  | .error .typeError => .dhiSearchError
  | .error e => .uncaught e

/-- Wraps an item list in the nesting expected by `extract_image_names`. -/
def wrapCatalog (items : List PyVal) : PyVal :=
  .dict [(.str "data".data, .dict [(.str "dhiListRepositories".data,
    .dict [(.str "items".data, .list items)])])]

/-- Discriminates the uncaught-`AttributeError` outcome. -/
def isUncaughtAttr : ExtractResult → Bool
  | .uncaught .attributeError => true
  | _ => false

/-- Discriminates the `DHISearchError` outcome. -/
def isDhiError : ExtractResult → Bool
  | .dhiSearchError => true
  | _ => false

/-- The `name` field of a raw item (for stating claims about skipping). -/
def itemName : PyVal → PyVal
  | .dict kvs => (assocFind (.str "name".data) kvs).getD .none
  | _ => .none

/-- Number of items carrying a truthy (non-empty) name. -/
def countNamed (items : List PyVal) : Nat :=
  (items.filter (fun it => pyTruthy (itemName it))).length

/-- Sum of the values of the stats dict. -/
def statsSum (stats : List (PyVal × Nat)) : Nat :=
  (stats.map Prod.snd).sum

/-- Shape of a well-formed `name` value: absent, `None`, or a string. -/
def okNameVal : Option PyVal → Bool
  | Option.none => true
  | some .none => true
  | some (.str _) => true
  | _ => false

/-- A well-formed raw item in the sense of the spec's `RawItem` (§4.4):
a record whose optional `name` and `type` are strings when present. -/
def wellFormedItem : PyVal → Bool
  | .dict kvs => okNameVal (assocFind (.str "name".data) kvs) &&
      okNameVal (assocFind (.str "type".data) kvs)
  | _ => false

/-- A well-formed raw item list. -/
def wellFormedItems (items : List PyVal) : Bool :=
  items.all wellFormedItem

/-- Result of `check_compliance` (`core.py` lines 202-222): the returned
dict with keys `"fips"` and `"stig"`. -/
structure ComplianceResult where
  fips : Bool
  stig : Bool
deriving DecidableEq

/-- The function `check_compliance` (`core.py` lines 202-222). -/
def check_compliance (tags : List PyStr) : ComplianceResult :=
  let tags_lower := tags.map pyLower
  { fips := tags_lower.any (fun t => subIn "-fips".data t)
  , stig := tags_lower.any (fun t => subIn "stig".data t) }

/-! ### Basic lemmas about the string primitives -/

theorem subIn_iff {p s : PyStr} : subIn p s = true ↔ p <:+: s := by
  induction s with
  | nil => simp [subIn]
  | cons c rest ih =>
    simp [subIn, ih, List.infix_cons_iff]

theorem insertDesc_perm (a : PyStr × Nat) (l : List (PyStr × Nat)) :
    List.Perm (insertDesc a l) (a :: l) := by
  induction l with
  | nil => rfl
  | cons b t ih =>
    by_cases h : b.2 < a.2
    · simp [insertDesc, h]
    · simp only [insertDesc, if_neg h]
      exact (ih.cons b).trans (List.Perm.swap a b t)

theorem sortDesc_perm (l : List (PyStr × Nat)) : List.Perm (sortDesc l) l := by
  induction l with
  | nil => rfl
  | cons x xs ih => exact (insertDesc_perm x (sortDesc xs)).trans (ih.cons x)

theorem mem_sortDesc {x : PyStr × Nat} {l : List (PyStr × Nat)} :
    x ∈ sortDesc l ↔ x ∈ l :=
  (sortDesc_perm l).mem_iff

theorem length_sortDesc (l : List (PyStr × Nat)) :
    (sortDesc l).length = l.length :=
  (sortDesc_perm l).length_eq

/-! ### Identity properties of the spec-modelled scorer -/

theorem lev_self (a : PyStr) : lev a a = 0 := by
  induction a with
  | nil => rfl
  | cons x xs ih => simp [lev, levAux, ih]

theorem ratioL_self (a : PyStr) : ratioL a a = 100 := by
  unfold ratioL
  rcases a with _ | ⟨c, t⟩
  · simp
  · rw [if_neg (by simp), lev_self]
    rw [Nat.sub_zero, Nat.mul_div_cancel _ (by simp)]

theorem ratioL_le (a b : PyStr) : ratioL a b ≤ 100 := by
  unfold ratioL
  split
  · exact Nat.le_refl 100
  · rename_i h
    calc 100 * (a.length + b.length - lev a b) / (a.length + b.length)
        ≤ 100 * (a.length + b.length) / (a.length + b.length) :=
          Nat.div_le_div_right (Nat.mul_le_mul_left 100 (Nat.sub_le _ _))
      _ = 100 := Nat.mul_div_cancel _ (Nat.pos_of_ne_zero h)

theorem tokenSortRatio_self (a : PyStr) : tokenSortRatio a a = 100 := by
  unfold tokenSortRatio
  exact ratioL_self _

theorem tokenSetRatio_self (a : PyStr) : tokenSetRatio a a = 100 := by
  unfold tokenSetRatio
  have h1 : (nub (pySplit a)).filter (fun t => decide (t ∈ nub (pySplit a))) = nub (pySplit a) :=
    List.filter_eq_self.mpr (fun x hx => by simpa using hx)
  have h2 : (nub (pySplit a)).filter (fun t => decide (t ∉ nub (pySplit a))) = [] :=
    List.filter_eq_nil_iff.mpr (fun x hx => by simpa using hx)
  simp only [h1, h2, setCombine, if_pos rfl]
  simp [ratioL_self]

theorem WRatioSpec_self (a : PyStr) : WRatioSpec a a = 100 := by
  unfold WRatioSpec
  rw [if_neg (by simp; omega)]
  rw [ratioL_self, tokenSortRatio_self, tokenSetRatio_self]
  decide

/-! ### Claims about `find_matches` -/

/-- C2: for every query string and every catalog, `find_matches` returns at
most 5 names, and every returned name scored at least 85 against the
normalised query under the ranking scorer. -/
theorem find_matches_length_and_threshold (wr pr : PyStr → PyStr → Nat)
    (q : PyStr) (catalog : List (PyStr × List PyStr)) :
    (find_matches wr pr q catalog).length ≤ 5 ∧
    ∀ n ∈ find_matches wr pr q catalog, 85 ≤ wr (normQuery q) n := by
  simp only [find_matches]
  constructor
  · rw [List.length_map, length_sortDesc]
    exact le_trans (List.length_filter_le _ _) (List.length_take_le 5 _)
  · intro n hn
    obtain ⟨m, hm, rfl⟩ := List.mem_map.1 hn
    have hmem := mem_sortDesc.1 hm
    obtain ⟨htake, hpred⟩ := List.mem_filter.1 hmem
    have hpairs := mem_sortDesc.1 (List.mem_of_mem_take htake)
    obtain ⟨img, _, heq⟩ := List.mem_map.1 hpairs
    have hscore : m.2 = wr (normQuery q) m.1 := by
      rw [← heq]
    simp only [Bool.and_eq_true, Bool.not_eq_true', decide_eq_false_iff_not] at hpred
    rw [← hscore]
    omega

/-- C7: `find_matches` is a total function (the model is a plain function
with no error outcome); an empty catalog yields the empty list, and an
empty query disables the core-name and keyword filters, leaving only the
score threshold. -/
theorem find_matches_no_error (wr pr : PyStr → PyStr → Nat) (q : PyStr)
    (catalog : List (PyStr × List PyStr)) :
    find_matches wr pr q [] = [] ∧
    find_matches wr pr [] catalog =
      (sortDesc (((sortDesc ((catalog.map Prod.fst).map
          (fun n => (n, wr (normQuery []) n)))).take 5).filter
        (fun m => !decide (m.2 < 85)))).map Prod.fst := by
  constructor
  · rfl
  · simp only [find_matches]
    have hcong : ∀ m ∈ (sortDesc ((catalog.map Prod.fst).map
        (fun n => (n, wr (normQuery []) n)))).take 5,
        (!decide (m.2 < 85) &&
          !coreRuleDiscards pr (coreNameOf []) (nameCleanOf m.1) &&
          !keywordDiscards (queryPartsOf []) (nameCleanOf m.1)
            (pyLower (joinSpace (tagsOf catalog m.1)))) = (!decide (m.2 < 85)) := by
      intro m _
      rw [show coreRuleDiscards pr (coreNameOf []) (nameCleanOf m.1) = false from rfl]
      rw [show keywordDiscards (queryPartsOf []) (nameCleanOf m.1)
        (pyLower (joinSpace (tagsOf catalog m.1))) = false from rfl]
      simp
    rw [List.filter_congr hcong]

/-- Structure of the `find_matches` result list: built from distinct catalog
keys, the returned names are distinct keys (shared backbone for C10). -/
theorem map_fst_pipeline (f : PyStr → Nat) (P : PyStr × Nat → Bool)
    (keys : List PyStr) (h : keys.Nodup) :
    ((sortDesc ((((sortDesc (keys.map (fun n => (n, f n)))).take 5).filter P))).map
      Prod.fst).Nodup ∧
    ∀ n ∈ (sortDesc ((((sortDesc (keys.map (fun n => (n, f n)))).take 5).filter P))).map
      Prod.fst, n ∈ keys := by
  have h1 : List.Perm ((sortDesc (keys.map (fun n => (n, f n)))).map Prod.fst) keys := by
    have hp := (sortDesc_perm (keys.map (fun n => (n, f n)))).map Prod.fst
    rw [List.map_map, show (Prod.fst ∘ fun n : PyStr => (n, f n)) = id from rfl,
      List.map_id] at hp
    exact hp
  have hsub : (((sortDesc (keys.map (fun n => (n, f n)))).take 5).filter P).Sublist
      (sortDesc (keys.map (fun n => (n, f n)))) :=
    (List.filter_sublist _).trans (List.take_sublist _ _)
  have hsubm := List.Sublist.map Prod.fst hsub
  have hnd1 : ((sortDesc (keys.map (fun n => (n, f n)))).map Prod.fst).Nodup :=
    h1.symm.nodup h
  have hnd2 := List.Nodup.sublist hsubm hnd1
  constructor
  · exact ((sortDesc_perm _).map Prod.fst).symm.nodup hnd2
  · intro n hn
    obtain ⟨m, hm, rfl⟩ := List.mem_map.1 hn
    have hmem := mem_sortDesc.1 hm
    obtain ⟨htake, _⟩ := List.mem_filter.1 hmem
    have hp := mem_sortDesc.1 (List.mem_of_mem_take htake)
    obtain ⟨img, himg, heq⟩ := List.mem_map.1 hp
    have : m.1 = img := by rw [← heq]
    rw [this]
    exact himg

/-- C10: every name returned by `find_matches` is a key of the supplied
catalog, and (the keys being unique, as they are in a Python dict) no name
is returned twice. -/
theorem find_matches_names_from_catalog (wr pr : PyStr → PyStr → Nat)
    (q : PyStr) (catalog : List (PyStr × List PyStr))
    (h : (catalog.map Prod.fst).Nodup) :
    (find_matches wr pr q catalog).Nodup ∧
    ∀ n ∈ find_matches wr pr q catalog, n ∈ catalog.map Prod.fst := by
  simp only [find_matches]
  exact map_fst_pipeline (fun n => wr (normQuery q) n)
    (fun m => !decide (m.2 < 85) &&
      !coreRuleDiscards pr (coreNameOf q) (nameCleanOf m.1) &&
      !keywordDiscards (queryPartsOf q) (nameCleanOf m.1)
        (pyLower (joinSpace (tagsOf catalog m.1)))) (catalog.map Prod.fst) h

/-- C10 witness at a concrete one-entry catalog. -/
theorem find_matches_names_from_catalog_witness :
    (([(("redis".data : PyStr), (["7".data] : List PyStr))].map Prod.fst).Nodup) ∧
    ((find_matches WRatioSpec pRatioSpec "redis".data [("redis".data, ["7".data])]).Nodup ∧
     ∀ n ∈ find_matches WRatioSpec pRatioSpec "redis".data [("redis".data, ["7".data])],
       n ∈ [(("redis".data : PyStr), (["7".data] : List PyStr))].map Prod.fst) :=
  ⟨by decide, find_matches_names_from_catalog WRatioSpec pRatioSpec "redis".data
    [("redis".data, ["7".data])] (by decide)⟩

/-- C3 (amended): the spec scorer gives identical strings score 100, and a
catalog name queried verbatim is never discarded by the core-name
containment rule provided its core name is a substring of its cleaned
name (names whose normalisation diverges from their cleaned form, e.g.
`"a  b"`, can be discarded — see the counterexample). -/
theorem score_self_and_core_rule (n : PyStr)
    (h : subIn (coreNameOf n) (nameCleanOf n) = true) :
    WRatioSpec n n = 100 ∧
    coreRuleDiscards pRatioSpec (coreNameOf n) (nameCleanOf n) = false :=
  ⟨WRatioSpec_self n, by simp [coreRuleDiscards, h]⟩

/-- C3 witness at the catalog name `"redis"`. -/
theorem score_self_and_core_rule_witness :
    subIn (coreNameOf "redis".data) (nameCleanOf "redis".data) = true ∧
    (WRatioSpec "redis".data "redis".data = 100 ∧
     coreRuleDiscards pRatioSpec (coreNameOf "redis".data) (nameCleanOf "redis".data) = false) :=
  ⟨by decide, score_self_and_core_rule "redis".data (by decide)⟩

/-- C3 counterexample: the catalog name `"a  b"` (two inner spaces), queried
verbatim, passes the 85 threshold with score 100 but is then discarded by
the core-name containment rule, so `find_matches` returns nothing. -/
theorem verbatim_query_core_rule_counterexample :
    find_matches WRatioSpec pRatioSpec "a  b".data [("a  b".data, [])] = [] ∧
    WRatioSpec (normQuery "a  b".data) "a  b".data = 100 ∧
    coreRuleDiscards pRatioSpec (coreNameOf "a  b".data) (nameCleanOf "a  b".data) = true := by
  refine ⟨by decide, ?_, by decide⟩
  rw [show normQuery "a  b".data = "a  b".data from by decide]
  exact WRatioSpec_self _

/-- C4 (amended): a surviving candidate is discarded by the
keyword-enforcement rule exactly when some enforced keyword occurs among
the query tokens but occurs neither in the cleaned name nor in the joined,
lowercased tag text; equivalently, a candidate for which every enforced
query keyword is found in the cleaned name or the tag text is not
discarded by this rule. -/
theorem keyword_rule_iff (query_parts : List PyStr) (name_clean tags_str : PyStr) :
    keywordDiscards query_parts name_clean tags_str = true ↔
    ∃ kw ∈ enforcedKeywords, kw ∈ query_parts ∧
      subIn kw name_clean = false ∧ subIn kw tags_str = false := by
  have m1 : query_parts.contains "cli".data = true ↔ "cli".data ∈ query_parts :=
    List.elem_iff
  have m2 : query_parts.contains "sdk".data = true ↔ "sdk".data ∈ query_parts :=
    List.elem_iff
  cases h1 : query_parts.contains "cli".data <;>
  cases h2 : query_parts.contains "sdk".data <;>
  cases h3 : subIn "cli".data name_clean <;>
  cases h4 : subIn "sdk".data name_clean <;>
  cases h5 : subIn "cli".data tags_str <;>
  cases h6 : subIn "sdk".data tags_str <;>
  simp_all [keywordDiscards, enforcedKeywords]

/-- C4 counterexample: with query `"cli sdk"` and the catalog entry
`"cli"` with no tags, the keyword `"cli"` is found in the cleaned name,
yet the candidate is discarded by the keyword-enforcement rule (because of
`"sdk"`), so the literal per-keyword reading of the claim fails. -/
theorem keyword_rule_counterexample :
    find_matches WRatioSpec pRatioSpec "cli sdk".data [("cli".data, [])] = [] ∧
    subIn "cli".data (nameCleanOf "cli".data) = true ∧
    "cli".data ∈ queryPartsOf "cli sdk".data ∧
    WRatioSpec (normQuery "cli sdk".data) "cli".data = 90 ∧
    coreRuleDiscards pRatioSpec (coreNameOf "cli sdk".data) (nameCleanOf "cli".data) = false ∧
    keywordDiscards (queryPartsOf "cli sdk".data) (nameCleanOf "cli".data)
      (pyLower (joinSpace (tagsOf [("cli".data, [])] "cli".data))) = true := by
  refine ⟨by decide, by decide, by decide, by decide, by decide, by decide⟩

/-- C5 (amended): the core name is the stop-word-free token list rejoined
with single spaces when that list is non-empty, and the normalised query
string itself (whitespace preserved verbatim) when stop-word removal
empties the token list; the claim's "tokens joined by single spaces"
reading holds whenever the normalised query already equals its tokens
joined by single spaces. -/
theorem core_name_join (q : PyStr)
    (h : normQuery q = joinSpace (queryPartsOf q)) :
    coreNameOf q =
      joinSpace (if corePartsOf q = [] then queryPartsOf q else corePartsOf q) := by
  unfold coreNameOf
  by_cases hc : corePartsOf q = []
  · rw [if_pos hc, if_pos hc, h]
  · rw [if_neg hc, if_neg hc]

/-- C5 witness at the all-stop-word query `"sdk cli"` (regular spacing). -/
theorem core_name_join_witness :
    normQuery "sdk cli".data = joinSpace (queryPartsOf "sdk cli".data) ∧
    coreNameOf "sdk cli".data =
      joinSpace (if corePartsOf "sdk cli".data = [] then queryPartsOf "sdk cli".data
        else corePartsOf "sdk cli".data) :=
  ⟨by decide, core_name_join "sdk cli".data (by decide)⟩

/-- C5 counterexample: for the all-stop-word query `"sdk  cli"` (double
space) the fallback core name is the raw normalised query, double space
preserved, not the token sequence rejoined by single spaces. -/
theorem core_name_fallback_counterexample :
    corePartsOf "sdk  cli".data = [] ∧
    coreNameOf "sdk  cli".data = "sdk  cli".data ∧
    coreNameOf "sdk  cli".data ≠ joinSpace (queryPartsOf "sdk  cli".data) := by
  refine ⟨by decide, by decide, by decide⟩

/-! ### Claims about `check_compliance` and `extract_image_names` -/

/-- Permutation invariance of `List.any`. -/
theorem perm_any_eq {l l' : List PyStr} (h : List.Perm l l') (f : PyStr → Bool) :
    l.any f = l'.any f := by
  rw [Bool.eq_iff_iff]
  simp only [List.any_eq_true]
  exact ⟨fun ⟨x, hx, hfx⟩ => ⟨x, h.mem_iff.1 hx, hfx⟩,
    fun ⟨x, hx, hfx⟩ => ⟨x, h.mem_iff.2 hx, hfx⟩⟩

/-- C9: `check_compliance` reports `fips` exactly when some tag, lowercased,
contains `"-fips"`, and `stig` exactly when some tag, lowercased, contains
`"stig"`; it is total, the empty tag list yields both flags false, and the
result is invariant under reordering of the tags. -/
theorem check_compliance_spec (tags : List PyStr) :
    ((check_compliance tags).fips = true ↔ ∃ t ∈ tags, subIn "-fips".data (pyLower t) = true) ∧
    ((check_compliance tags).stig = true ↔ ∃ t ∈ tags, subIn "stig".data (pyLower t) = true) ∧
    check_compliance [] = ⟨false, false⟩ ∧
    ∀ tags' : List PyStr, List.Perm tags tags' →
      check_compliance tags = check_compliance tags' := by
  refine ⟨?_, ?_, rfl, ?_⟩
  · simp [check_compliance, List.any_eq_true]
  · simp [check_compliance, List.any_eq_true]
  · intro tags' hp
    unfold check_compliance
    simp only [ComplianceResult.mk.injEq]
    exact ⟨perm_any_eq (hp.map pyLower) _, perm_any_eq (hp.map pyLower) _⟩

/-- C9 witness: a concrete evaluation and a concrete reordering. -/
theorem check_compliance_spec_witness :
    check_compliance ["7-fips-slim".data, "latest".data] =
      check_compliance ["latest".data, "7-fips-slim".data] ∧
    (check_compliance ["7-fips-slim".data, "latest".data]).fips = true :=
  ⟨(check_compliance_spec ["7-fips-slim".data, "latest".data]).2.2.2
      ["latest".data, "7-fips-slim".data]
      (List.Perm.swap "latest".data "7-fips-slim".data []),
   (check_compliance_spec ["7-fips-slim".data, "latest".data]).1.mpr
      ⟨"7-fips-slim".data, by decide, by decide⟩⟩

/-- C1 (bug evidence): an `items` list containing a non-record element makes
`extract_image_names` raise an uncaught `AttributeError` (`int` has no
attribute `get`) instead of the `DHISearchError` promised by the claim and
by the function's own docstring; a non-iterable `items` (`TypeError`), by
contrast, is caught and converted. -/
theorem extract_nonrecord_item_uncaught :
    isUncaughtAttr (extract_image_names (wrapCatalog [.int 42])) = true ∧
    isDhiError (extract_image_names (wrapCatalog [.int 42])) = false ∧
    isDhiError (extract_image_names (.dict [(.str "data".data,
      .dict [(.str "dhiListRepositories".data,
        .dict [(.str "items".data, .int 0)])])])) = true := by
  refine ⟨by decide, by decide, by decide⟩

theorem statsSum_incr (k : PyVal) (s : List (PyVal × Nat)) :
    statsSum (statsIncr k s) = statsSum s + 1 := by
  induction s with
  | nil => rfl
  | cons p rest ih =>
    obtain ⟨k', v⟩ := p
    by_cases h : keyEq k k' = true
    · simp [statsIncr, h, statsSum]
      omega
    · simp [statsIncr, h, statsSum] at ih ⊢
      omega

theorem extractLoop_cons_skip (kvs : List (PyVal × PyVal)) (rest : List PyVal)
    (d : List (PyVal × PyVal)) (s : List (PyVal × Nat))
    (h : pyTruthy ((assocFind (.str "name".data) kvs).getD .none) = false) :
    extractLoop (.dict kvs :: rest) d s = extractLoop rest d s := by
  simp [pyGet] at h ⊢
  simp [extractLoop, pyGet, h]

theorem extractLoop_cons_named (kvs : List (PyVal × PyVal)) (rest : List PyVal)
    (d : List (PyVal × PyVal)) (s : List (PyVal × Nat))
    (h : pyTruthy ((assocFind (.str "name".data) kvs).getD .none) = true)
    (h2 : hashable ((assocFind (.str "type".data) kvs).getD (.str "Unknown".data)) = true)
    (h3 : hashable ((assocFind (.str "name".data) kvs).getD .none) = true) :
    extractLoop (.dict kvs :: rest) d s =
      extractLoop rest
        (assocSet ((assocFind (.str "name".data) kvs).getD .none)
          (if pyTruthy ((assocFind (.str "tagNames".data) kvs).getD (.list [])) then
            ((assocFind (.str "tagNames".data) kvs).getD (.list [])) else .list []) d)
        (statsIncr ((assocFind (.str "type".data) kvs).getD (.str "Unknown".data)) s) := by
  simp [pyGet] at h h2 h3 ⊢
  simp [extractLoop, pyGet, h, h2, h3]

theorem extractLoop_wf : ∀ items : List PyVal, wellFormedItems items = true →
    ∀ d s, ∃ d' s', extractLoop items d s = .ok (d', s') ∧
      statsSum s' = statsSum s + countNamed items ∧
      extractLoop items d s =
        extractLoop (items.filter (fun it => pyTruthy (itemName it))) d s := by
  intro items
  induction items with
  | nil => intro _ d s; exact ⟨d, s, rfl, by simp [countNamed], rfl⟩
  | cons item rest ih =>
    intro hwf d s
    obtain ⟨h1, h2⟩ : wellFormedItem item = true ∧ wellFormedItems rest = true := by
      simpa [wellFormedItems] using hwf
    obtain ⟨kvs, rfl⟩ : ∃ kvs, item = .dict kvs := by
      cases item with
      | dict kvs => exact ⟨kvs, rfl⟩
      | none => simp [wellFormedItem] at h1
      | bool b => simp [wellFormedItem] at h1
      | int n => simp [wellFormedItem] at h1
      | str s => simp [wellFormedItem] at h1
      | list xs => simp [wellFormedItem] at h1
    have h1' : okNameVal (assocFind (.str "name".data) kvs) = true ∧
        okNameVal (assocFind (.str "type".data) kvs) = true := by
      rw [show wellFormedItem (.dict kvs) =
        (okNameVal (assocFind (.str "name".data) kvs) &&
         okNameVal (assocFind (.str "type".data) kvs)) from rfl,
        Bool.and_eq_true] at h1
      exact h1
    have hname : itemName (.dict kvs) = (assocFind (.str "name".data) kvs).getD .none := rfl
    by_cases htr : pyTruthy ((assocFind (.str "name".data) kvs).getD .none) = true
    · have hhname : hashable ((assocFind (.str "name".data) kvs).getD .none) = true := by
        have ha := h1'.1
        rcases hf : assocFind (.str "name".data) kvs with _ | v
        · rw [hf] at htr
          simp [pyTruthy] at htr
        · rw [hf] at ha htr
          rcases v with _ | b | n | st | xs | kv <;>
            simp_all [okNameVal, pyTruthy, hashable]
      have hhtype : hashable ((assocFind (.str "type".data) kvs).getD
          (.str "Unknown".data)) = true := by
        have hb := h1'.2
        rcases hf : assocFind (.str "type".data) kvs with _ | v
        · simp [hashable]
        · rw [hf] at hb
          rcases v with _ | b | n | st | xs | kv <;> simp_all [okNameVal, hashable]
      rw [extractLoop_cons_named kvs rest d s htr hhtype hhname]
      obtain ⟨d', s', hl, hs, hf⟩ := ih h2 _ _
      refine ⟨d', s', hl, ?_, ?_⟩
      · rw [hs, statsSum_incr]
        have : countNamed (.dict kvs :: rest) = countNamed rest + 1 := by
          simp [countNamed, List.filter_cons, hname, htr]
        omega
      · have hkeep : (List.filter (fun it => pyTruthy (itemName it)) (.dict kvs :: rest)) =
            .dict kvs :: List.filter (fun it => pyTruthy (itemName it)) rest := by
          simp [List.filter_cons, hname, htr]
        rw [hkeep, extractLoop_cons_named kvs _ d s htr hhtype hhname, hf]
    · have htr' : pyTruthy ((assocFind (.str "name".data) kvs).getD .none) = false :=
        Bool.not_eq_true _ ▸ (by simpa using htr)
      rw [extractLoop_cons_skip kvs rest d s htr']
      obtain ⟨d', s', hl, hs, hf⟩ := ih h2 d s
      refine ⟨d', s', hl, ?_, ?_⟩
      · rw [hs]
        have : countNamed (.dict kvs :: rest) = countNamed rest := by
          simp [countNamed, List.filter_cons, hname, htr']
        omega
      · have hdrop : (List.filter (fun it => pyTruthy (itemName it)) (.dict kvs :: rest)) =
            List.filter (fun it => pyTruthy (itemName it)) rest := by
          simp [List.filter_cons, hname, htr']
        rw [hdrop, hf]

/-- C6: on a well-formed raw item list `extract_image_names` succeeds, the
values of the stats dict sum to the number of items with a truthy name,
and items lacking a name contribute to neither output dict (extraction of
the list equals extraction of the list with nameless items removed). -/
theorem extract_stats_sum (items : List PyVal) (h : wellFormedItems items = true) :
    ∃ d s, extract_image_names (wrapCatalog items) = .ok d s ∧
      statsSum s = countNamed items ∧
      extract_image_names (wrapCatalog items) =
        extract_image_names (wrapCatalog
          (items.filter (fun it => pyTruthy (itemName it)))) := by
  obtain ⟨d', s', hloop, hsum, hfilt⟩ := extractLoop_wf items h [] []
  have hnav : ∀ its : List PyVal, extractTry (wrapCatalog its) = extractLoop its [] [] :=
    fun its => rfl
  refine ⟨d', s', ?_, ?_, ?_⟩
  · simp only [extract_image_names, hnav, hloop]
  · simpa [statsSum] using hsum
  · simp only [extract_image_names, hnav]
    rw [← hfilt]

/-- C6 witness at the spec's example item list (a named `redis` item and a
nameless item). -/
theorem extract_stats_sum_witness :
    wellFormedItems [PyVal.dict [(.str "name".data, .str "redis".data),
        (.str "type".data, .str "IMAGE".data),
        (.str "tagNames".data, .list [.str "7".data, .str "7-fips".data])],
      PyVal.dict [(.str "type".data, .str "IMAGE".data)]] = true ∧
    (∃ d s, extract_image_names (wrapCatalog [PyVal.dict [(.str "name".data, .str "redis".data),
          (.str "type".data, .str "IMAGE".data),
          (.str "tagNames".data, .list [.str "7".data, .str "7-fips".data])],
        PyVal.dict [(.str "type".data, .str "IMAGE".data)]]) = .ok d s ∧
      statsSum s = countNamed [PyVal.dict [(.str "name".data, .str "redis".data),
          (.str "type".data, .str "IMAGE".data),
          (.str "tagNames".data, .list [.str "7".data, .str "7-fips".data])],
        PyVal.dict [(.str "type".data, .str "IMAGE".data)]] ∧
      extract_image_names (wrapCatalog [PyVal.dict [(.str "name".data, .str "redis".data),
          (.str "type".data, .str "IMAGE".data),
          (.str "tagNames".data, .list [.str "7".data, .str "7-fips".data])],
        PyVal.dict [(.str "type".data, .str "IMAGE".data)]]) =
        extract_image_names (wrapCatalog
          ([PyVal.dict [(.str "name".data, .str "redis".data),
            (.str "type".data, .str "IMAGE".data),
            (.str "tagNames".data, .list [.str "7".data, .str "7-fips".data])],
          PyVal.dict [(.str "type".data, .str "IMAGE".data)]].filter
            (fun it => pyTruthy (itemName it))))) :=
  ⟨by decide, extract_stats_sum _ (by decide)⟩

/-! ### Idempotence of the normalisation (infrastructure for C8) -/

theorem toNat_ofNatAux (n : Nat) (h : n.isValidChar) :
    (Char.ofNatAux n h).toNat = n := rfl

theorem lowerChar_idem (c : Char) : lowerChar (lowerChar c) = lowerChar c := by
  by_cases h : 65 ≤ c.toNat ∧ c.toNat ≤ 90
  · have h1 : lowerChar c = Char.ofNatAux (c.toNat + 32) (lowerValid h.1 h.2) :=
      dif_pos h
    rw [h1]
    unfold lowerChar
    rw [dif_neg (by rw [toNat_ofNatAux]; omega)]
  · have h1 : lowerChar c = c := dif_neg h
    rw [h1, h1]

theorem map_eq_self_iff_mem (f : Char → Char) (s : PyStr) :
    s.map f = s ↔ ∀ c ∈ s, f c = c := by
  induction s with
  | nil => simp
  | cons c rest ih => simp_all

theorem pyLower_idem (s : PyStr) : pyLower (pyLower s) = pyLower s := by
  rw [pyLower, pyLower, List.map_map,
    show lowerChar ∘ lowerChar = lowerChar from funext lowerChar_idem]

theorem replNet_chars (s : PyStr) : ∀ c ∈ replNet s, c ∈ s ∨ c ∈ "dotnet".data := by
  induction s using replNet.induct with
  | case1 rest ih =>
    intro c hc
    rw [replNet.eq_1] at hc
    simp only [List.mem_cons] at hc
    rcases hc with rfl | rfl | rfl | rfl | rfl | rfl | hm
    · right; decide
    · right; decide
    · right; decide
    · right; decide
    · right; decide
    · right; decide
    · rcases ih c hm with h | h
      · left
        simp only [List.mem_cons]
        simp [h]
      · right; exact h
  | case2 c rest hg ih =>
    intro x hx
    rw [replNet.eq_2 c rest hg] at hx
    simp only [List.mem_cons] at hx
    rcases hx with rfl | hm
    · left; exact List.mem_cons_self _ _
    · rcases ih x hm with h | h
      · left; exact List.mem_cons_of_mem _ h
      · right; exact h
  | case3 => intro c hc; rw [replNet.eq_3] at hc; cases hc

theorem replNet_takesT (r : PyStr) (h : ['t'] <+: replNet r) : ['t'] <+: r := by
  induction r using replNet.induct with
  | case1 rest ih =>
    rw [replNet.eq_1] at h
    rw [List.cons_prefix_cons] at h
    exact absurd h.1 (by decide)
  | case2 c rest hg ih =>
    rw [replNet.eq_2 c rest hg, List.cons_prefix_cons] at h
    rw [List.cons_prefix_cons]
    exact ⟨h.1, List.nil_prefix⟩
  | case3 => rw [replNet.eq_3] at h; exact h

theorem replNet_takesET (r : PyStr) (h : ['e', 't'] <+: replNet r) :
    ['e', 't'] <+: r := by
  induction r using replNet.induct with
  | case1 rest ih =>
    rw [replNet.eq_1] at h
    rw [List.cons_prefix_cons] at h
    exact absurd h.1 (by decide)
  | case2 c rest hg ih =>
    rw [replNet.eq_2 c rest hg, List.cons_prefix_cons] at h
    rw [List.cons_prefix_cons]
    exact ⟨h.1, replNet_takesT rest h.2⟩
  | case3 => rw [replNet.eq_3] at h; exact h

theorem replNet_takesNET (r : PyStr) (h : ['n', 'e', 't'] <+: replNet r) :
    ['n', 'e', 't'] <+: r := by
  induction r using replNet.induct with
  | case1 rest ih =>
    rw [replNet.eq_1] at h
    rw [List.cons_prefix_cons] at h
    exact absurd h.1 (by decide)
  | case2 c rest hg ih =>
    rw [replNet.eq_2 c rest hg, List.cons_prefix_cons] at h
    rw [List.cons_prefix_cons]
    exact ⟨h.1, replNet_takesET rest h.2⟩
  | case3 => rw [replNet.eq_3] at h; exact h

theorem replNet_netFree (s : PyStr) : ¬ (".net".data <:+: replNet s) := by
  induction s using replNet.induct with
  | case1 rest ih =>
    intro h
    rw [replNet.eq_1] at h
    rw [List.infix_cons_iff] at h
    rcases h with h | h
    · rw [show (".net".data : PyStr) = '.' :: "net".data from rfl,
        List.cons_prefix_cons] at h
      exact absurd h.1 (by decide)
    rw [List.infix_cons_iff] at h
    rcases h with h | h
    · rw [show (".net".data : PyStr) = '.' :: "net".data from rfl,
        List.cons_prefix_cons] at h
      exact absurd h.1 (by decide)
    rw [List.infix_cons_iff] at h
    rcases h with h | h
    · rw [show (".net".data : PyStr) = '.' :: "net".data from rfl,
        List.cons_prefix_cons] at h
      exact absurd h.1 (by decide)
    rw [List.infix_cons_iff] at h
    rcases h with h | h
    · rw [show (".net".data : PyStr) = '.' :: "net".data from rfl,
        List.cons_prefix_cons] at h
      exact absurd h.1 (by decide)
    rw [List.infix_cons_iff] at h
    rcases h with h | h
    · rw [show (".net".data : PyStr) = '.' :: "net".data from rfl,
        List.cons_prefix_cons] at h
      exact absurd h.1 (by decide)
    rw [List.infix_cons_iff] at h
    rcases h with h | h
    · rw [show (".net".data : PyStr) = '.' :: "net".data from rfl,
        List.cons_prefix_cons] at h
      exact absurd h.1 (by decide)
    exact ih h
  | case2 c rest hg ih =>
    intro h
    rw [replNet.eq_2 c rest hg, List.infix_cons_iff] at h
    rcases h with h | h
    · rw [show (".net".data : PyStr) = '.' :: "net".data from rfl,
        List.cons_prefix_cons] at h
      obtain ⟨rfl, h2⟩ := h
      have h3 := replNet_takesNET rest (by exact h2)
      obtain ⟨t, ht⟩ := h3
      exact hg t rfl (by rw [← ht]; rfl)
    · exact ih h
  | case3 =>
    intro h
    rw [replNet.eq_3] at h
    rw [List.infix_nil] at h
    exact absurd h (by decide)

theorem prefix_through (p : PyStr) (c : Char) (hc : c ∉ p) :
    ∀ (a b : PyStr), p <+: a ++ c :: b → p <+: a := by
  induction p with
  | nil => intro a b _; exact List.nil_prefix
  | cons x p' ih =>
    intro a b h
    cases a with
    | nil =>
      rw [List.nil_append, List.cons_prefix_cons] at h
      exact absurd (h.1 ▸ List.mem_cons_self x p') hc
    | cons y a' =>
      rw [List.cons_append, List.cons_prefix_cons] at h
      obtain ⟨rfl, h2⟩ := h
      exact List.cons_prefix_cons.mpr
        ⟨rfl, ih (fun hm => hc (List.mem_cons_of_mem _ hm)) a' b h2⟩

theorem infix_split (p : PyStr) (c : Char) (hc : c ∉ p) :
    ∀ (a b : PyStr), p <:+: a ++ c :: b → p <:+: a ∨ p <:+: b := by
  intro a
  induction a with
  | nil =>
    intro b h
    rw [List.nil_append, List.infix_cons_iff] at h
    rcases h with h | h
    · have := prefix_through p c hc [] b (by simpa using h)
      rw [List.prefix_nil] at this
      exact Or.inl (this ▸ List.nil_infix)
    · exact Or.inr h
  | cons y a' ih =>
    intro b h
    rw [List.cons_append, List.infix_cons_iff] at h
    rcases h with h | h
    · have := prefix_through p c hc (y :: a') b (by simpa using h)
      exact Or.inl this.isInfix
    · rcases ih b h with h2 | h2
      · exact Or.inl (List.infix_cons h2)
      · exact Or.inr h2

theorem pySplitGo_acc (rest : PyStr) : ∀ (a : Char) (acc : PyStr),
    pySplitGo rest (a :: acc) =
      ((a :: acc).reverse ++ rest.takeWhile (fun d => !pySpace d)) ::
        pySplitGo (rest.dropWhile (fun d => !pySpace d)) [] := by
  induction rest with
  | nil => intro a acc; simp [pySplitGo]
  | cons c r ih =>
    intro a acc
    by_cases hs : pySpace c = true
    · rw [show pySplitGo (c :: r) (a :: acc) = (a :: acc).reverse :: pySplitGo r [] from by
        simp [pySplitGo, hs]]
      rw [List.takeWhile_cons, List.dropWhile_cons]
      simp [hs, pySplitGo]
    · rw [show pySplitGo (c :: r) (a :: acc) = pySplitGo r (c :: a :: acc) from by
        simp [pySplitGo, hs]]
      rw [ih c (a :: acc)]
      rw [List.takeWhile_cons, List.dropWhile_cons]
      simp [hs]

theorem pySplit_cons_space (c : Char) (rest : PyStr) (h : pySpace c = true) :
    pySplit (c :: rest) = pySplit rest := by
  simp [pySplit, pySplitGo, h]

theorem pySplit_cons_word (c : Char) (rest : PyStr) (h : pySpace c = false) :
    pySplit (c :: rest) =
      (c :: rest.takeWhile (fun d => !pySpace d)) ::
        pySplit (rest.dropWhile (fun d => !pySpace d)) := by
  rw [show pySplit (c :: rest) = pySplitGo rest [c] from by simp [pySplit, pySplitGo, h]]
  rw [pySplitGo_acc rest c []]
  rfl

theorem pySplit_tokens : ∀ (n : Nat) (s : PyStr), s.length ≤ n →
    ∀ t ∈ pySplit s, t ≠ [] ∧ (∀ c ∈ t, pySpace c = false) ∧ t <:+: s := by
  intro n
  induction n with
  | zero =>
    intro s hs t ht
    rw [List.length_eq_zero.1 (Nat.le_zero.1 hs)] at ht
    cases ht
  | succ n ih =>
    intro s hs t ht
    cases s with
    | nil => cases ht
    | cons c rest =>
      by_cases hc : pySpace c = true
      · rw [pySplit_cons_space c rest hc] at ht
        obtain ⟨h1, h2, h3⟩ := ih rest (by simpa using hs) t ht
        exact ⟨h1, h2, List.infix_cons h3⟩
      · rw [pySplit_cons_word c rest (by simpa using hc)] at ht
        rcases List.mem_cons.1 ht with rfl | hm
        · refine ⟨by simp, ?_, ?_⟩
          · intro x hx
            rcases List.mem_cons.1 hx with rfl | hx
            · simpa using hc
            · have := List.mem_takeWhile_imp hx
              simpa using this
          · have h1 : (c :: rest.takeWhile (fun d => !pySpace d)) <+: c :: rest :=
              List.cons_prefix_cons.mpr ⟨rfl, List.takeWhile_prefix _⟩
            exact h1.isInfix
        · have hlen : (rest.dropWhile (fun d => !pySpace d)).length ≤ n := by
            have := List.Sublist.length_le (List.dropWhile_sublist
              (l := rest) (fun d => !pySpace d))
            simp at hs
            omega
          obtain ⟨h1, h2, h3⟩ := ih _ hlen t hm
          have h4 : t <:+: rest :=
            h3.trans (List.dropWhile_suffix (fun d => !pySpace d)).isInfix
          exact ⟨h1, h2, List.infix_cons h4⟩

theorem pySplit_joinSpace : ∀ ts : List PyStr,
    (∀ t ∈ ts, t ≠ [] ∧ ∀ c ∈ t, pySpace c = false) →
    pySplit (joinSpace ts) = ts := by
  intro ts
  induction ts with
  | nil => intro _; rfl
  | cons t ts ih =>
    intro h
    obtain ⟨hne, hnospace⟩ := h t (List.mem_cons_self t ts)
    obtain ⟨c, t', rfl⟩ : ∃ c t', t = c :: t' := by
      cases t with
      | nil => exact absurd rfl hne
      | cons c t' => exact ⟨c, t', rfl⟩
    have hc : pySpace c = false := hnospace c (List.mem_cons_self c t')
    have ht' : ∀ d ∈ t', pySpace d = false :=
      fun d hd => hnospace d (List.mem_cons_of_mem c hd)
    cases ts with
    | nil =>
      rw [show joinSpace [c :: t'] = c :: t' from rfl]
      rw [pySplit_cons_word c t' hc]
      rw [List.takeWhile_eq_self_iff.mpr (by simpa using ht')]
      rw [List.dropWhile_eq_nil_iff.mpr (by simpa using ht')]
      rfl
    | cons t₂ ts₂ =>
      rw [show joinSpace ((c :: t') :: t₂ :: ts₂) =
        (c :: t') ++ ' ' :: joinSpace (t₂ :: ts₂) from rfl]
      rw [List.cons_append]
      rw [pySplit_cons_word c (t' ++ ' ' :: joinSpace (t₂ :: ts₂)) hc]
      rw [List.takeWhile_append_of_pos (by simpa using ht')]
      rw [List.dropWhile_append_of_pos (by simpa using ht')]
      rw [show List.takeWhile (fun d => !pySpace d) (' ' :: joinSpace (t₂ :: ts₂)) = []
        from by simp [List.takeWhile_cons, pySpace]]
      rw [show List.dropWhile (fun d => !pySpace d) (' ' :: joinSpace (t₂ :: ts₂)) =
        ' ' :: joinSpace (t₂ :: ts₂) from by simp [List.dropWhile_cons, pySpace]]
      rw [List.append_nil]
      rw [pySplit_cons_space ' ' _ (by simp [pySpace])]
      rw [ih (fun u hu => h u (List.mem_cons_of_mem _ hu))]

theorem joinSpace_chars : ∀ (ts : List PyStr) (c : Char), c ∈ joinSpace ts →
    (∃ t ∈ ts, c ∈ t) ∨ c = ' ' := by
  intro ts
  induction ts with
  | nil => intro c hc; cases hc
  | cons t ts ih =>
    intro c hc
    cases ts with
    | nil =>
      rw [show joinSpace [t] = t from rfl] at hc
      exact Or.inl ⟨t, List.mem_cons_self t [], hc⟩
    | cons t₂ ts₂ =>
      rw [show joinSpace (t :: t₂ :: ts₂) = t ++ ' ' :: joinSpace (t₂ :: ts₂) from rfl] at hc
      rcases List.mem_append.1 hc with h | h
      · exact Or.inl ⟨t, List.mem_cons_self t _, h⟩
      · rcases List.mem_cons.1 h with rfl | h2
        · exact Or.inr rfl
        · rcases ih c h2 with ⟨u, hu, hcu⟩ | h3
          · exact Or.inl ⟨u, List.mem_cons_of_mem t hu, hcu⟩
          · exact Or.inr h3

theorem joinSpace_netFree : ∀ ts : List PyStr,
    (∀ t ∈ ts, ¬ (".net".data <:+: t)) → ¬ (".net".data <:+: joinSpace ts) := by
  intro ts
  induction ts with
  | nil =>
    intro _ h
    rw [show joinSpace [] = [] from rfl, List.infix_nil] at h
    exact absurd h (by decide)
  | cons t ts ih =>
    intro h hin
    cases ts with
    | nil =>
      exact h t (List.mem_cons_self t []) (by simpa using hin)
    | cons t₂ ts₂ =>
      rw [show joinSpace (t :: t₂ :: ts₂) = t ++ ' ' :: joinSpace (t₂ :: ts₂) from rfl] at hin
      rcases infix_split ".net".data ' ' (by decide) t (joinSpace (t₂ :: ts₂)) hin with h1 | h1
      · exact h t (List.mem_cons_self t _) h1
      · exact ih (fun u hu => h u (List.mem_cons_of_mem t hu)) h1

theorem normQuery_lowered (q : PyStr) : pyLower (normQuery q) = normQuery q := by
  unfold normQuery aliasSub
  by_cases h : subIn ".net".data (pyLower q) = true
  · rw [if_pos h]
    rw [show pyLower (replNet (pyLower q)) = (replNet (pyLower q)).map lowerChar from rfl]
    rw [map_eq_self_iff_mem]
    intro c hc
    rcases replNet_chars (pyLower q) c hc with h1 | h1
    · exact (map_eq_self_iff_mem lowerChar (pyLower q)).1 (pyLower_idem q) c h1
    · revert h1
      have : ∀ c ∈ "dotnet".data, lowerChar c = c := by decide
      exact this c
  · rw [if_neg h]
    exact pyLower_idem q

theorem normQuery_netFree (q : PyStr) : ¬ (".net".data <:+: normQuery q) := by
  unfold normQuery aliasSub
  by_cases h : subIn ".net".data (pyLower q) = true
  · rw [if_pos h]
    exact replNet_netFree (pyLower q)
  · rw [if_neg h]
    intro hin
    exact h (subIn_iff.2 hin)

theorem normQuery_fix (x : PyStr) (hl : pyLower x = x)
    (hn : ¬ (".net".data <:+: x)) : normQuery x = x := by
  unfold normQuery aliasSub
  rw [hl]
  cases hsub : subIn ".net".data x with
  | true => exact absurd (subIn_iff.1 hsub) hn
  | false => rfl

theorem queryParts_props (q : PyStr) : ∀ t ∈ queryPartsOf q,
    t ≠ [] ∧ (∀ c ∈ t, pySpace c = false) ∧ pyLower t = t ∧ ¬ (".net".data <:+: t) := by
  intro t ht
  obtain ⟨h1, h2, h3⟩ := pySplit_tokens (normQuery q).length (normQuery q)
    (Nat.le_refl _) t ht
  refine ⟨h1, h2, ?_, ?_⟩
  · rw [show pyLower t = t.map lowerChar from rfl, map_eq_self_iff_mem]
    intro c hc
    exact (map_eq_self_iff_mem lowerChar (normQuery q)).1 (normQuery_lowered q) c
      (h3.subset hc)
  · intro hin
    exact normQuery_netFree q (hin.trans h3)

/-- C8: normalisation is idempotent on core names: renormalising the core
name produced for a query yields the same core name again. -/
theorem core_name_idempotent (q : PyStr) :
    coreNameOf (coreNameOf q) = coreNameOf q := by
  by_cases hc : corePartsOf q = []
  · rw [show coreNameOf q = normQuery q from by rw [coreNameOf, if_pos hc]]
    have hfix : normQuery (normQuery q) = normQuery q :=
      normQuery_fix (normQuery q) (normQuery_lowered q) (normQuery_netFree q)
    have hparts : corePartsOf (normQuery q) = [] := by
      rw [corePartsOf, queryPartsOf, hfix]
      exact hc
    rw [coreNameOf, if_pos hparts, hfix]
  · have hjoin : coreNameOf q = joinSpace (corePartsOf q) := by
      rw [coreNameOf, if_neg hc]
    have htoks : ∀ t ∈ corePartsOf q,
        t ≠ [] ∧ (∀ c ∈ t, pySpace c = false) ∧ pyLower t = t ∧
          ¬ (".net".data <:+: t) :=
      fun t ht => queryParts_props q t (List.mem_of_mem_filter ht)
    have hlow : pyLower (joinSpace (corePartsOf q)) = joinSpace (corePartsOf q) := by
      rw [show pyLower (joinSpace (corePartsOf q)) =
        (joinSpace (corePartsOf q)).map lowerChar from rfl, map_eq_self_iff_mem]
      intro c hcm
      rcases joinSpace_chars (corePartsOf q) c hcm with ⟨t, ht, hct⟩ | rfl
      · exact (map_eq_self_iff_mem lowerChar t).1 (htoks t ht).2.2.1 c hct
      · decide
    have hnet : ¬ (".net".data <:+: joinSpace (corePartsOf q)) :=
      joinSpace_netFree (corePartsOf q) (fun t ht => (htoks t ht).2.2.2)
    have hfix : normQuery (joinSpace (corePartsOf q)) = joinSpace (corePartsOf q) :=
      normQuery_fix _ hlow hnet
    have hsplit : pySplit (joinSpace (corePartsOf q)) = corePartsOf q :=
      pySplit_joinSpace (corePartsOf q) (fun t ht => ⟨(htoks t ht).1, (htoks t ht).2.1⟩)
    have hparts : corePartsOf (joinSpace (corePartsOf q)) = corePartsOf q := by
      rw [corePartsOf, queryPartsOf, hfix, hsplit]
      refine List.filter_eq_self.mpr (fun t ht => ?_)
      have ht' : t ∈ (queryPartsOf q).filter (fun p => !stopWords.contains p) := ht
      exact (List.mem_filter.1 ht').2
    rw [hjoin, coreNameOf, hparts, if_neg hc]
